import Mathlib

/-!
Verification of the markdown link-integrity checker (`scripts/check-links.sh`).

The checker scans every markdown file under the content root, extracts
`[text](url)` link tokens with `grep -noE`, pulls the url back out of each
matched token with a greedy `sed` substitution, classifies the url by prefix,
resolves internal paths against the content-collection tree, validates
external urls with `curl`, accumulates broken-link rows in discovery order,
and exits 0 exactly when no broken link was recorded.

Strings and urls are modelled as `List Char`; the filesystem is the list of
content-relative file names that exist; the network is an oracle mapping a
url to `Option Nat` (`some c` = an HTTP response with status code `c`,
`none` = no response at all).  On no response, `curl -w "%{http_code}"`
still prints `000` but exits non-zero, so the `|| echo "000"` of the script
appends a second `000` and the captured status is the six-character string
`000000` — which passes both of the script's tests.
-/

namespace LinkCheck

abbrev Chars := List Char

/-- Prefix test, mirroring the bash glob tests `[[ "$url" == pat* ]]`. -/
def hasPrefix : Chars → Chars → Bool
  | [], _ => true
  | _ :: _, [] => false
  | p :: ps, c :: cs => p == c && hasPrefix ps cs

/-- `${url%%#*}`: remove everything from the first `#` on. -/
def stripAnchor (cs : Chars) : Chars := cs.takeWhile (fun c => c ≠ '#')

/-- Split a character list at every occurrence of `sep` (used to model the
anchored path regexes of `check_internal_path`). -/
def splitOnChar (sep : Char) : Chars → List Chars
  | [] => [[]]
  | c :: cs =>
    match splitOnChar sep cs with
    | [] => [[]]
    | h :: t => if c = sep then [] :: h :: t else (c :: h) :: t

/-- Join components with `sep`; left inverse of `splitOnChar`. -/
def joinWith (sep : Char) : List Chars → Chars
  | [] => []
  | [x] => x
  | x :: xs => x ++ sep :: joinWith sep xs

/-- `[[ -f "$CONTENT_DIR/..." ]]`: the file tree is the list of existing
content-relative file names. -/
def fileExists (fs : List Chars) (p : Chars) : Bool := fs.contains p

/-- `check_internal_path` from check-links.sh.  The anchor is stripped, then
the path is tested against the anchored regexes
`^/docs/guides/([^/]+)/([^/]+)$`, `^/docs/tutorials/([^/]+)$`, `^/docs/?$`
and the literal `/`, in that order; each regex is rendered here by the shape
of the `/`-split of the path. -/
def check_internal_path (fs : List Chars) (url : Chars) : Bool :=
  let path := stripAnchor url
  match splitOnChar '/' path with
  | [a, b, c, x, y] =>
      -- ^/docs/guides/([^/]+)/([^/]+)$  →  guides/$category/$slug.md
      a == ([] : Chars) && b == "docs".data && c == "guides".data &&
      !(x == ([] : Chars)) && !(y == ([] : Chars)) &&
      fileExists fs ("guides/".data ++ x ++ '/' :: (y ++ ".md".data))
  | [a, b, c, x] =>
      -- ^/docs/tutorials/([^/]+)$  →  tutorials/$slug.md
      a == ([] : Chars) && b == "docs".data && c == "tutorials".data &&
      !(x == ([] : Chars)) &&
      fileExists fs ("tutorials/".data ++ (x ++ ".md".data))
  | [a, b, c] =>
      -- ^/docs/?$, the trailing-slash form "/docs/"
      a == ([] : Chars) && b == "docs".data && c == ([] : Chars)
  | [a, b] =>
      -- ^/docs/?$ without trailing slash, or the home page "/"
      a == ([] : Chars) && (b == "docs".data || b == ([] : Chars))
  | _ => false

/-- Decimal digit characters, as printed by the `%03ld` format behind
curl's `%{http_code}` write-out. -/
def digitChar : Nat → Char
  | 0 => '0'
  | 1 => '1'
  | 2 => '2'
  | 3 => '3'
  | 4 => '4'
  | 5 => '5'
  | 6 => '6'
  | 7 => '7'
  | 8 => '8'
  | 9 => '9'
  | _ => '?'

/-- The three digits `%{http_code}` prints for a status code. -/
def statusDigits (c : Nat) : Chars :=
  [digitChar (c / 100 % 10), digitChar (c / 10 % 10), digitChar (c % 10)]

/-- What `status=$(curl -s -o /dev/null -w "%{http_code}" ... || echo "000")`
captures.  On a response curl exits 0 and the write-out prints the
three-digit code with no newline.  On no response (connection, DNS or
timeout failure) curl still prints `000` through the write-out but exits
non-zero, so the `echo "000"` runs as well and the captured text is `000`
immediately followed by `000`: the six characters `000000`. -/
def curlStatusString (resp : Option Nat) : Chars :=
  match resp with
  | some c => statusDigits c
  | none => "000000".data

/-- Value of a digit character in bash arithmetic. -/
def charDigit (ch : Char) : Nat := ch.toNat - 48

/-- The number bash's `-lt` reads a digit string as (`000000` evaluates
to 0). -/
def statusValue (s : Chars) : Nat :=
  s.foldl (fun acc ch => acc * 10 + charDigit ch) 0

/-- `check_external_url`: ok iff the captured status differs from the
string `000` (`[[ "$status" != "000" ]]`) and its numeric value is below
400 (`[[ "$status" -lt 400 ]]`).  On no response the status is `000000`:
it differs from `000` and evaluates to 0, so BOTH tests pass and the
unreachable url is reported ok. -/
def check_external_url (net : Chars → Option Nat) (url : Chars) : Bool :=
  let status := curlStatusString (net url)
  !(status == "000".data) && decide (statusValue status < 400)

/-- LinkKind of the specification's data model. -/
inductive LinkKind
  | anchor
  | contactScheme
  | internal
  | external
  | other
deriving DecidableEq

/-- The classifier: the prefix dispatch of `process_file` (the merged
`mailto:`/`tel:`/`#` branch is split into the spec's two kinds, which the
script treats identically). -/
def classify (url : Chars) : LinkKind :=
  if hasPrefix "http://".data url || hasPrefix "https://".data url then .external
  else if hasPrefix "#".data url then .anchor
  else if hasPrefix "mailto:".data url || hasPrefix "tel:".data url then .contactScheme
  else if hasPrefix "/".data url then .internal
  else .other

/-! ### Link extraction: `grep -noE` plus the `sed` url pull-out -/

/-- One attempt of the grep regex `\[[^]]+\]\([^)]+\)` at a position right
after a `[`: a non-empty `]`-free display text, then `](`, then a non-empty
`)`-free url, then `)`.  On success returns the text, the url and the
remainder of the line after the match. -/
def tryMatch (cs : Chars) : Option (Chars × Chars × Chars) :=
  let t := cs.takeWhile (fun c => c ≠ ']')
  match cs.dropWhile (fun c => c ≠ ']') with
  | ']' :: '(' :: r2 =>
    let u := r2.takeWhile (fun c => c ≠ ')')
    match r2.dropWhile (fun c => c ≠ ')') with
    | ')' :: r4 => if t.isEmpty || u.isEmpty then none else some (t, u, r4)
    | _ => none
  | _ => none

/-- All matches of `grep -oE '\[[^]]+\]\([^)]+\)'` on one line, leftmost
first, non-overlapping, as (text, url) pairs; fuelled so that the scanner
computes by structural recursion (the fuel is the line length, which always
suffices because a successful match consumes at least one character). -/
def grepScanAux : Nat → Chars → List (Chars × Chars)
  | 0, _ => []
  | _, [] => []
  | fuel + 1, c :: rest =>
    if c = '[' then
      match tryMatch rest with
      | some (t, u, r4) => (t, u) :: grepScanAux fuel r4
      | none => grepScanAux fuel rest
    else grepScanAux fuel rest

def grepScan (cs : Chars) : List (Chars × Chars) := grepScanAux cs.length cs

/-- One attempt of the sed expression `\[([^]]*)\]\(([^)]+)\)` at a position
right after a `[` of the matched token: a possibly-empty `]`-free text, then
`](`, then a non-empty `)`-free url, then `)`; anything may follow.
Returns the captured url. -/
def sedMatchAt (cs : Chars) : Option Chars :=
  match cs.dropWhile (fun c => c ≠ ']') with
  | ']' :: '(' :: r2 =>
    let u := r2.takeWhile (fun c => c ≠ ')')
    match r2.dropWhile (fun c => c ≠ ')') with
    | ')' :: _ => if u.isEmpty then none else some u
    | _ => none
  | _ => none

/-- The greedy leading `.*` of `sed -E 's/.*\[([^]]*)\]\(([^)]+)\).*/\2/'`
picks the last `[` from which the rest of the expression still matches; this
returns the url captured there. -/
def lastFeasibleUrl : Chars → Option Chars
  | [] => none
  | c :: rest =>
    match lastFeasibleUrl rest with
    | some u => some u
    | none => if c = '[' then sedMatchAt rest else none

/-- The sed invocation itself: the url capture of the last feasible `[`, or
the input unchanged when the expression does not match anywhere. -/
def sedOutput (content : Chars) : Chars :=
  match lastFeasibleUrl content with
  | some u => u
  | none => content

/-- Rebuild the text of a grep match from its captures. -/
def mkToken (t u : Chars) : Chars := '[' :: t ++ ']' :: '(' :: u ++ [')']

/-- The url `process_file` keeps for one grep match: the match text is fed
through sed, and the two skip guards
(`[[ "$url" == "$content" ]] && continue`, `[[ -z "$url" ]] && continue`)
drop the token when sed left the content unchanged or the url is empty. -/
def sedPick (p : Chars × Chars) : Option Chars :=
  let content := mkToken p.1 p.2
  let url := sedOutput content
  if url == content then none
  else if url == ([] : Chars) then none
  else some url

/-- The urls extracted from one line, in match order. -/
def lineUrls (line : Chars) : List Chars := (grepScan line).filterMap sedPick

/-- Urls of a whole document paired with their 1-based line numbers, line by
line (`grep -n` numbering starting at `n`). -/
def extractFrom : Nat → List Chars → List (Nat × Chars)
  | _, [] => []
  | n, line :: rest => (lineUrls line).map (fun u => (n, u)) ++ extractFrom (n + 1) rest

def extractLinks (doc : List Chars) : List (Nat × Chars) := extractFrom 1 doc

/-! ### Per-link processing, per-file processing, and the driver -/

structure BrokenLinkRecord where
  sourcePath : Chars
  lineNumber : Nat
  rawUrl : Chars
  linkType : Chars
deriving DecidableEq

structure Config where
  fixMode : Bool
  skipExternal : Bool
deriving DecidableEq

/-- The prefix dispatch of `process_file` for one url: external urls are
checked (or skipped wholesale under `--skip-external`), `mailto:`/`tel:`/`#`
urls are passed over, internal urls are resolved against the content tree,
and anything else is left alone; a broken check appends a record. -/
def processUrl (cfg : Config) (net : Chars → Option Nat) (fs : List Chars)
    (path : Chars) (ln : Nat) (url : Chars) : Option BrokenLinkRecord :=
  if hasPrefix "http://".data url || hasPrefix "https://".data url then
    if cfg.skipExternal then none
    else if check_external_url net url then none
    else some ⟨path, ln, url, "external".data⟩
  else if hasPrefix "mailto:".data url || hasPrefix "tel:".data url
      || hasPrefix "#".data url then none
  else if hasPrefix "/".data url then
    if check_internal_path fs url then none
    else some ⟨path, ln, url, "internal".data⟩
  else none

structure FileDoc where
  path : Chars
  lines : List Chars
deriving DecidableEq

/-- `process_file`: the broken-link rows a single file appends to
`$BROKEN_FILE`, in discovery order. -/
def processFile (cfg : Config) (net : Chars → Option Nat) (fs : List Chars)
    (doc : FileDoc) : List BrokenLinkRecord :=
  (extractLinks doc.lines).filterMap (fun e => processUrl cfg net fs doc.path e.1 e.2)

structure ScanReport where
  filesChecked : Nat
  filesWithErrors : Nat
  brokenLinks : List BrokenLinkRecord
deriving DecidableEq

/-- One iteration of the main file loop: bump the counters and append the
file's rows to the accumulated broken-link list. -/
def scanStep (cfg : Config) (net : Chars → Option Nat) (fs : List Chars)
    (rep : ScanReport) (doc : FileDoc) : ScanReport :=
  let recs := processFile cfg net fs doc
  { filesChecked := rep.filesChecked + 1
    filesWithErrors := rep.filesWithErrors + (if recs.isEmpty then 0 else 1)
    brokenLinks := rep.brokenLinks ++ recs }

/-- The main loop over the enumerated files. -/
def runScan (cfg : Config) (net : Chars → Option Nat) (fs : List Chars)
    (docs : List FileDoc) : ScanReport :=
  docs.foldl (scanStep cfg net fs) ⟨0, 0, []⟩

/-- `main`'s return value: 0 iff `$BROKEN_FILE` stayed empty, else 1 —
computed the same way whether or not `--fix` ran in between. -/
def exitCode (rep : ScanReport) : Nat := if rep.brokenLinks.isEmpty then 0 else 1

/-- What `find "$CONTENT_DIR" ... 2>/dev/null` feeds the loop: either the
file list, or — when the content root cannot be enumerated — nothing at
all, the failure status of the process substitution being discarded. -/
inductive FindResult
  | ok (docs : List FileDoc)
  | failed

def emittedDocs : FindResult → List FileDoc
  | .ok docs => docs
  | .failed => []

/-- The whole run: scan whatever `find` emitted, report, and exit. -/
def runMain (cfg : Config) (net : Chars → Option Nat) (fs : List Chars)
    (fr : FindResult) : ScanReport × Nat :=
  let rep := runScan cfg net fs (emittedDocs fr)
  (rep, exitCode rep)

/-! ### Helper lemmas: takeWhile / dropWhile on decomposed inputs -/

theorem takeWhile_all {p : Char → Bool} : ∀ {l : Chars}, (∀ a ∈ l, p a = true) → l.takeWhile p = l
  | [], _ => rfl
  | c :: cs, h => by
    have hc : p c = true := h c (List.mem_cons_self c cs)
    simp [List.takeWhile, hc, takeWhile_all (fun a ha => h a (List.mem_cons_of_mem c ha))]

theorem takeWhile_append_stop {p : Char → Bool} :
    ∀ {t : Chars}, (∀ a ∈ t, p a = true) → ∀ {x : Char}, p x = false → ∀ (z : Chars),
      (t ++ x :: z).takeWhile p = t
  | [], _, x, hx, z => by simp [List.takeWhile, hx]
  | c :: cs, h, x, hx, z => by
    have hc : p c = true := h c (List.mem_cons_self c cs)
    simp only [List.cons_append, List.takeWhile, hc]
    simp [takeWhile_append_stop (fun a ha => h a (List.mem_cons_of_mem c ha)) hx z]

theorem dropWhile_append_stop {p : Char → Bool} :
    ∀ {t : Chars}, (∀ a ∈ t, p a = true) → ∀ {x : Char}, p x = false → ∀ (z : Chars),
      (t ++ x :: z).dropWhile p = x :: z
  | [], _, x, hx, z => by simp [List.dropWhile, hx]
  | c :: cs, h, x, hx, z => by
    have hc : p c = true := h c (List.mem_cons_self c cs)
    simp only [List.cons_append, List.dropWhile, hc]
    exact dropWhile_append_stop (fun a ha => h a (List.mem_cons_of_mem c ha)) hx z

theorem stripAnchor_no_hash {l : Chars} (h : '#' ∉ l) : stripAnchor l = l :=
  takeWhile_all fun a ha => by
    simp only [decide_eq_true_eq]
    exact fun hEq => h (hEq ▸ ha)

theorem stripAnchor_append {p : Chars} (h : '#' ∉ p) (f : Chars) :
    stripAnchor (p ++ '#' :: f) = p := by
  unfold stripAnchor
  exact takeWhile_append_stop
    (fun a ha => by simp only [decide_eq_true_eq]; exact fun hEq => h (hEq ▸ ha))
    (by simp) f

theorem stripAnchor_idem (l : Chars) : stripAnchor (stripAnchor l) = stripAnchor l :=
  stripAnchor_no_hash fun hmem => by
    have := List.mem_takeWhile_imp hmem
    simp at this

/-! ### Helper lemmas: hasPrefix -/

theorem hasPrefix_cons {p : Char} {ps cs : Chars} (h : hasPrefix (p :: ps) cs = true) :
    ∃ rest, cs = p :: rest ∧ hasPrefix ps rest = true := by
  cases cs with
  | nil => simp [hasPrefix] at h
  | cons c rest =>
    simp only [hasPrefix, Bool.and_eq_true, beq_iff_eq] at h
    exact ⟨rest, by rw [h.1], h.2⟩

theorem hasPrefix_cons_self (p : Char) (ps rest : Chars) (h : hasPrefix ps rest = true) :
    hasPrefix (p :: ps) (p :: rest) = true := by
  simp [hasPrefix, h]

/-- Two candidate prefixes that begin with different characters cannot both
match the same url. -/
theorem hasPrefix_head {p : Char} {ps cs : Chars} (h : hasPrefix (p :: ps) cs = true) :
    ∃ rest, cs = p :: rest := by
  obtain ⟨rest, hr, _⟩ := hasPrefix_cons h
  exact ⟨rest, hr⟩

/-! ### Helper lemmas: splitOnChar and joinWith -/

theorem splitOnChar_ne_nil (sep : Char) (l : Chars) : splitOnChar sep l ≠ [] := by
  cases l with
  | nil => simp [splitOnChar]
  | cons c cs =>
    simp only [splitOnChar]
    cases h : splitOnChar sep cs with
    | nil => simp
    | cons hd tl => by_cases hc : c = sep <;> simp [hc]

theorem splitOnChar_no_sep {sep : Char} : ∀ {l : Chars}, sep ∉ l → splitOnChar sep l = [l]
  | [], _ => rfl
  | c :: cs, h => by
    have hc : c ≠ sep := fun hEq => h (hEq ▸ List.mem_cons_self c cs)
    have ih := splitOnChar_no_sep (fun hmem => h (List.mem_cons_of_mem c hmem))
    simp [splitOnChar, ih, hc]

theorem splitOnChar_sep_cons (sep : Char) (l : Chars) :
    splitOnChar sep (sep :: l) = [] :: splitOnChar sep l := by
  simp only [splitOnChar]
  cases h : splitOnChar sep l with
  | nil => exact absurd h (splitOnChar_ne_nil sep l)
  | cons hd tl => simp

theorem splitOnChar_append_sep {sep : Char} :
    ∀ {x : Chars}, sep ∉ x → ∀ (y : Chars),
      splitOnChar sep (x ++ sep :: y) = x :: splitOnChar sep y
  | [], _, y => by simp [splitOnChar_sep_cons]
  | c :: cs, h, y => by
    have hc : c ≠ sep := fun hEq => h (hEq ▸ List.mem_cons_self c cs)
    have ih := splitOnChar_append_sep (fun hmem => h (List.mem_cons_of_mem c hmem)) y
    simp only [List.cons_append, splitOnChar, List.append_eq]
    rw [ih]
    simp [hc]

theorem joinWith_splitOnChar (sep : Char) : ∀ l : Chars, joinWith sep (splitOnChar sep l) = l
  | [] => rfl
  | c :: cs => by
    have ih := joinWith_splitOnChar sep cs
    simp only [splitOnChar]
    cases h : splitOnChar sep cs with
    | nil => exact absurd h (splitOnChar_ne_nil sep cs)
    | cons hd tl =>
      rw [h] at ih
      by_cases hc : c = sep
      · subst hc
        simp only [if_pos rfl]
        cases tl with
        | nil => simp only [joinWith] at ih ⊢; simp [ih]
        | cons t0 t1 => simp only [joinWith] at ih ⊢; simp [ih]
      · simp only [if_neg hc]
        cases tl with
        | nil => simp only [joinWith] at ih ⊢; rw [ih]
        | cons t0 t1 =>
          simp only [joinWith] at ih ⊢
          rw [List.cons_append, ih]

theorem splitOnChar_parts_no_sep (sep : Char) :
    ∀ (l : Chars) {part : Chars}, part ∈ splitOnChar sep l → sep ∉ part := by
  intro l
  induction l with
  | nil =>
    intro part hmem
    simp only [splitOnChar, List.mem_singleton] at hmem
    simp [hmem]
  | cons c cs ih =>
    intro part hmem
    simp only [splitOnChar] at hmem
    cases h : splitOnChar sep cs with
    | nil => exact absurd h (splitOnChar_ne_nil sep cs)
    | cons hd tl =>
      rw [h] at hmem
      have hmem' : part ∈ (if c = sep then [] :: hd :: tl else (c :: hd) :: tl) := hmem
      clear hmem
      by_cases hc : c = sep
      · subst hc
        rw [if_pos rfl] at hmem'
        rename' hmem' => hmem
        rcases List.mem_cons.mp hmem with h1 | h1
        · simp [h1]
        · rcases List.mem_cons.mp h1 with h2 | h2
          · exact h2 ▸ ih (h ▸ List.mem_cons_self hd tl)
          · exact ih (h ▸ List.mem_cons_of_mem hd h2)
      · rw [if_neg hc] at hmem'
        rcases List.mem_cons.mp hmem' with h1 | h1
        · subst h1
          intro hsep
          rcases List.mem_cons.mp hsep with h2 | h2
          · exact hc h2.symm
          · exact ih (h ▸ List.mem_cons_self hd tl) h2
        · exact ih (h ▸ List.mem_cons_of_mem hd h1)

/-! ### Helper lemmas: the grep scanner -/

theorem length_take_drop (p : Char → Bool) (l : Chars) :
    (l.takeWhile p).length + (l.dropWhile p).length = l.length := by
  rw [← List.length_append, List.takeWhile_append_dropWhile]

theorem tryMatch_some {cs t u r : Chars} (h : tryMatch cs = some (t, u, r)) :
    cs = t ++ ']' :: '(' :: (u ++ ')' :: r) ∧ t ≠ [] ∧ u ≠ [] ∧ ']' ∉ t ∧ ')' ∉ u := by
  unfold tryMatch at h
  split at h
  case h_1 r2 heq =>
    split at h
    case h_1 r4 heq2 =>
      dsimp only at h
      split at h
      · exact absurd h (by simp)
      case isFalse hguard =>
        rw [Option.some.injEq, Prod.mk.injEq, Prod.mk.injEq] at h
        obtain ⟨h1, h2, h3⟩ := h
        subst h1
        subst h2
        subst h3
        have hcs : cs = List.takeWhile (fun c => decide (c ≠ ']')) cs ++ (']' :: '(' :: r2) := by
          rw [← heq, List.takeWhile_append_dropWhile]
        have hr2 : r2 = List.takeWhile (fun c => decide (c ≠ ')')) r2 ++ (')' :: r4) := by
          rw [← heq2, List.takeWhile_append_dropWhile]
        refine ⟨?_, ?_, ?_, ?_, ?_⟩
        · conv_lhs => rw [hcs, hr2]
        · intro hnil
          rw [hnil] at hguard
          simp at hguard
        · intro hnil
          rw [hnil] at hguard
          simp at hguard
        · intro hmem
          have := List.mem_takeWhile_imp hmem
          simp at this
        · intro hmem
          have := List.mem_takeWhile_imp hmem
          simp at this
    case h_2 => exact absurd h (by simp)
  case h_2 => exact absurd h (by simp)

theorem tryMatch_token {t u : Chars} (ht : t ≠ []) (htm : ']' ∉ t) (hu : u ≠ [])
    (hum : ')' ∉ u) (r : Chars) :
    tryMatch (t ++ ']' :: '(' :: (u ++ ')' :: r)) = some (t, u, r) := by
  have h1 : List.takeWhile (fun c => decide (c ≠ ']')) (t ++ ']' :: '(' :: (u ++ ')' :: r)) = t :=
    takeWhile_append_stop
      (fun a ha => by simp only [decide_eq_true_eq]; exact fun hEq => htm (hEq ▸ ha))
      (by simp) _
  have h2 : List.dropWhile (fun c => decide (c ≠ ']')) (t ++ ']' :: '(' :: (u ++ ')' :: r)) =
      ']' :: '(' :: (u ++ ')' :: r) :=
    dropWhile_append_stop
      (fun a ha => by simp only [decide_eq_true_eq]; exact fun hEq => htm (hEq ▸ ha))
      (by simp) _
  have h3 : List.takeWhile (fun c => decide (c ≠ ')')) (u ++ ')' :: r) = u :=
    takeWhile_append_stop
      (fun a ha => by simp only [decide_eq_true_eq]; exact fun hEq => hum (hEq ▸ ha))
      (by simp) _
  have h4 : List.dropWhile (fun c => decide (c ≠ ')')) (u ++ ')' :: r) = ')' :: r :=
    dropWhile_append_stop
      (fun a ha => by simp only [decide_eq_true_eq]; exact fun hEq => hum (hEq ▸ ha))
      (by simp) _
  simp only [tryMatch, h1, h2, h3, h4]
  simp [List.isEmpty_iff, ht, hu]

theorem tryMatch_rest_length {cs t u r : Chars} (h : tryMatch cs = some (t, u, r)) :
    r.length < cs.length := by
  obtain ⟨hcs, -, -, -, -⟩ := tryMatch_some h
  rw [hcs]
  simp [List.length_append]
  omega

theorem grepScanAux_congr : ∀ (n : Nat), ∀ (cs : Chars), cs.length ≤ n →
    ∀ (f1 f2 : Nat), cs.length ≤ f1 → cs.length ≤ f2 →
      grepScanAux f1 cs = grepScanAux f2 cs := by
  intro n
  induction n with
  | zero =>
    intro cs hcs f1 f2 _ _
    have : cs = [] := List.length_eq_zero.mp (Nat.le_zero.mp hcs)
    subst this
    cases f1 <;> cases f2 <;> rfl
  | succ n ih =>
    intro cs hcs f1 f2 h1 h2
    cases cs with
    | nil => cases f1 <;> cases f2 <;> rfl
    | cons c rest =>
      simp only [List.length_cons] at hcs h1 h2
      cases f1 with
      | zero => omega
      | succ f1' =>
        cases f2 with
        | zero => omega
        | succ f2' =>
          simp only [grepScanAux]
          by_cases hc : c = '['
          · simp only [if_pos hc]
            cases htm : tryMatch rest with
            | some tur =>
              obtain ⟨t, u, r4⟩ := tur
              have hlen := tryMatch_rest_length htm
              dsimp only
              rw [ih r4 (by omega) f1' f2' (by omega) (by omega)]
            | none =>
              dsimp only
              exact ih rest (by omega) f1' f2' (by omega) (by omega)
          · simp only [if_neg hc]
            exact ih rest (by omega) f1' f2' (by omega) (by omega)

theorem grepScanAux_fuel {f : Nat} {cs : Chars} (h : cs.length ≤ f) :
    grepScanAux f cs = grepScan cs :=
  grepScanAux_congr cs.length cs le_rfl f cs.length h le_rfl

theorem grepScan_nil : grepScan [] = [] := rfl

theorem grepScan_cons_ne {c : Char} (hc : c ≠ '[') (cs : Chars) :
    grepScan (c :: cs) = grepScan cs := by
  show grepScanAux (cs.length + 1) (c :: cs) = grepScan cs
  simp only [grepScanAux, if_neg hc]
  rfl

theorem grepScan_cons_fail {cs : Chars} (hm : tryMatch cs = none) :
    grepScan ('[' :: cs) = grepScan cs := by
  show grepScanAux (cs.length + 1) ('[' :: cs) = grepScan cs
  simp only [grepScanAux, hm, eq_self_iff_true, if_true]
  rfl

theorem grepScan_cons_match {cs t u r : Chars} (hm : tryMatch cs = some (t, u, r)) :
    grepScan ('[' :: cs) = (t, u) :: grepScan r := by
  show grepScanAux (cs.length + 1) ('[' :: cs) = _
  simp only [grepScanAux, hm, eq_self_iff_true, if_true]
  rw [grepScanAux_fuel (le_of_lt (tryMatch_rest_length hm))]

theorem grepScan_append_plain : ∀ {s : Chars}, '[' ∉ s → ∀ (cs : Chars),
    grepScan (s ++ cs) = grepScan cs
  | [], _, cs => rfl
  | c :: s, h, cs => by
    have hc : c ≠ '[' := fun hEq => h (hEq ▸ List.mem_cons_self c s)
    rw [List.cons_append, grepScan_cons_ne hc,
      grepScan_append_plain (fun hmem => h (List.mem_cons_of_mem c hmem)) cs]

theorem grepScan_token {t u : Chars} (ht : t ≠ []) (htm : ']' ∉ t) (hu : u ≠ [])
    (hum : ')' ∉ u) (cs : Chars) :
    grepScan ('[' :: (t ++ ']' :: '(' :: (u ++ ')' :: cs))) = (t, u) :: grepScan cs :=
  grepScan_cons_match (tryMatch_token ht htm hu hum cs)

/-! ### Helper lemmas: the sed url pull-out -/

theorem lastFeasibleUrl_no_bracket : ∀ {cs : Chars}, '[' ∉ cs → lastFeasibleUrl cs = none
  | [], _ => rfl
  | c :: rest, h => by
    have hc : c ≠ '[' := fun hEq => h (hEq ▸ List.mem_cons_self c rest)
    have ih := lastFeasibleUrl_no_bracket (fun hm => h (List.mem_cons_of_mem c hm))
    simp [lastFeasibleUrl, ih, hc]

theorem sedMatchAt_some_ne {cs u : Chars} (h : sedMatchAt cs = some u) :
    u ≠ [] ∧ u.length < cs.length := by
  unfold sedMatchAt at h
  split at h
  case h_1 r2 heq =>
    dsimp only at h
    split at h
    case h_1 r5 heq2 =>
      split at h
      · exact absurd h (by simp)
      case isFalse hguard =>
        rw [Option.some.injEq] at h
        subst h
        constructor
        · intro hnil
          rw [hnil] at hguard
          simp at hguard
        · have h1 := length_take_drop (fun c => decide (c ≠ ']')) cs
          have h2 := length_take_drop (fun c => decide (c ≠ ')')) r2
          rw [heq] at h1
          simp only [List.length_cons] at h1
          omega
    case h_2 => exact absurd h (by simp)
  case h_2 => exact absurd h (by simp)

theorem lastFeasibleUrl_some_ne : ∀ {cs u : Chars}, lastFeasibleUrl cs = some u →
    u ≠ [] ∧ u.length < cs.length := by
  intro cs
  induction cs with
  | nil => intro u h; simp [lastFeasibleUrl] at h
  | cons c rest ih =>
    intro u h
    simp only [lastFeasibleUrl] at h
    cases hl : lastFeasibleUrl rest with
    | some w =>
      rw [hl] at h
      dsimp only at h
      rw [Option.some.injEq] at h
      subst h
      obtain ⟨hne, hlen⟩ := ih hl
      exact ⟨hne, by simp only [List.length_cons]; omega⟩
    | none =>
      rw [hl] at h
      dsimp only at h
      by_cases hc : c = '['
      · rw [if_pos hc] at h
        obtain ⟨hne, hlen⟩ := sedMatchAt_some_ne h
        exact ⟨hne, by simp only [List.length_cons]; omega⟩
      · rw [if_neg hc] at h
        simp at h

theorem sedMatchAt_suffix {t2 u : Chars} (h2 : ']' ∉ t2) (hum : ')' ∉ u) (hne : u ≠ [])
    (r : Chars) : sedMatchAt (t2 ++ ']' :: '(' :: (u ++ ')' :: r)) = some u := by
  have hd : List.dropWhile (fun c => decide (c ≠ ']')) (t2 ++ ']' :: '(' :: (u ++ ')' :: r)) =
      ']' :: '(' :: (u ++ ')' :: r) :=
    dropWhile_append_stop
      (fun a ha => by simp only [decide_eq_true_eq]; exact fun hEq => h2 (hEq ▸ ha))
      (by simp) _
  have h3 : List.takeWhile (fun c => decide (c ≠ ')')) (u ++ ')' :: r) = u :=
    takeWhile_append_stop
      (fun a ha => by simp only [decide_eq_true_eq]; exact fun hEq => hum (hEq ▸ ha))
      (by simp) _
  have h4 : List.dropWhile (fun c => decide (c ≠ ')')) (u ++ ')' :: r) = ')' :: r :=
    dropWhile_append_stop
      (fun a ha => by simp only [decide_eq_true_eq]; exact fun hEq => hum (hEq ▸ ha))
      (by simp) _
  simp only [sedMatchAt, hd, h3, h4]
  simp [List.isEmpty_iff, hne]

theorem mkToken_eq (t u : Chars) :
    mkToken t u = '[' :: (t ++ ']' :: '(' :: (u ++ ')' :: [])) := by
  simp [mkToken, List.append_assoc]

theorem lastFeasibleUrl_body {u : Chars} (hum : ')' ∉ u) (hbu : '[' ∉ u) (hne : u ≠ []) :
    ∀ {t : Chars}, ']' ∉ t →
      lastFeasibleUrl (t ++ ']' :: '(' :: (u ++ ')' :: [])) = none ∨
      lastFeasibleUrl (t ++ ']' :: '(' :: (u ++ ')' :: [])) = some u := by
  intro t
  induction t with
  | nil =>
    intro _
    left
    apply lastFeasibleUrl_no_bracket
    intro hmem
    rw [List.nil_append] at hmem
    rcases List.mem_cons.mp hmem with h | hmem
    · exact absurd h (by decide)
    · rcases List.mem_cons.mp hmem with h | hmem
      · exact absurd h (by decide)
      · rcases List.mem_append.mp hmem with h | h
        · exact hbu h
        · rcases List.mem_cons.mp h with h' | h'
          · exact absurd h' (by decide)
          · exact absurd h' (by simp)
  | cons c t' ih =>
    intro hmt
    have hmt' : ']' ∉ t' := fun hm => hmt (List.mem_cons_of_mem c hm)
    have hc : c ≠ ']' := fun hEq => hmt (hEq ▸ List.mem_cons_self c t')
    rw [List.cons_append]
    simp only [lastFeasibleUrl]
    rcases ih hmt' with h | h
    · rw [h]
      dsimp only
      by_cases hcb : c = '['
      · rw [if_pos hcb]
        right
        exact sedMatchAt_suffix hmt' hum hne []
      · rw [if_neg hcb]
        left
        rfl
    · rw [h]
      dsimp only
      right
      rfl

theorem lastFeasibleUrl_token {t u : Chars} (htm : ']' ∉ t) (hum : ')' ∉ u)
    (hbu : '[' ∉ u) (hne : u ≠ []) : lastFeasibleUrl (mkToken t u) = some u := by
  rw [mkToken_eq]
  simp only [lastFeasibleUrl]
  rcases lastFeasibleUrl_body hum hbu hne htm with h | h
  · rw [h]
    simp only [if_true]
    exact sedMatchAt_suffix htm hum hne []
  · rw [h]

theorem lastFeasibleUrl_token_pick {t u : Chars} (htm : ']' ∉ t) (hum : ')' ∉ u)
    (hne : u ≠ []) : ∃ w, lastFeasibleUrl (mkToken t u) = some w := by
  rw [mkToken_eq]
  simp only [lastFeasibleUrl]
  cases hl : lastFeasibleUrl (t ++ ']' :: '(' :: (u ++ ')' :: [])) with
  | some w => exact ⟨w, rfl⟩
  | none =>
    refine ⟨u, ?_⟩
    simp only [if_true]
    exact sedMatchAt_suffix htm hum hne []

theorem mkToken_length (t u : Chars) : (mkToken t u).length = t.length + u.length + 4 := by
  simp [mkToken]
  omega

theorem sedPick_token_ex {t u : Chars} (htm : ']' ∉ t) (hum : ')' ∉ u) (hne : u ≠ []) :
    ∃ w, sedPick (t, u) = some w ∧ w ≠ [] := by
  obtain ⟨w, hw⟩ := lastFeasibleUrl_token_pick htm hum hne
  obtain ⟨hwne, hwlen⟩ := lastFeasibleUrl_some_ne hw
  refine ⟨w, ?_, hwne⟩
  have hg1 : (w == mkToken t u) = false := by
    rw [beq_eq_false_iff_ne]
    intro hEq
    rw [hEq] at hwlen
    omega
  have hg2 : (w == ([] : Chars)) = false := by
    rw [beq_eq_false_iff_ne]
    exact hwne
  simp [sedPick, sedOutput, hw, hg1, hg2]

theorem sedPick_token {t u : Chars} (htm : ']' ∉ t) (hum : ')' ∉ u) (hbu : '[' ∉ u)
    (hne : u ≠ []) : sedPick (t, u) = some u := by
  have hw := lastFeasibleUrl_token htm hum hbu hne
  have hg1 : (u == mkToken t u) = false := by
    rw [beq_eq_false_iff_ne]
    intro hEq
    have := congrArg List.length hEq
    rw [mkToken_length] at this
    omega
  have hg2 : (u == ([] : Chars)) = false := by
    rw [beq_eq_false_iff_ne]
    exact hne
  simp [sedPick, sedOutput, hw, hg1, hg2]

/-! ### Helper lemmas: line-level extraction -/

theorem lineUrls_nil : lineUrls [] = [] := rfl

theorem lineUrls_cons_ne {c : Char} (hc : c ≠ '[') (cs : Chars) :
    lineUrls (c :: cs) = lineUrls cs := by
  unfold lineUrls
  rw [grepScan_cons_ne hc]

theorem lineUrls_append_plain {s : Chars} (hs : '[' ∉ s) (cs : Chars) :
    lineUrls (s ++ cs) = lineUrls cs := by
  unfold lineUrls
  rw [grepScan_append_plain hs]

theorem lineUrls_token {t u : Chars} (ht : t ≠ []) (htm : ']' ∉ t) (hu : u ≠ [])
    (hum : ')' ∉ u) (hbu : '[' ∉ u) (cs : Chars) :
    lineUrls ('[' :: (t ++ ']' :: '(' :: (u ++ ')' :: cs))) = u :: lineUrls cs := by
  unfold lineUrls
  rw [grepScan_token ht htm hu hum cs, List.filterMap_cons_some (sedPick_token htm hum hbu hu)]

theorem lineUrls_token_ex {t u : Chars} (ht : t ≠ []) (htm : ']' ∉ t) (hu : u ≠ [])
    (hum : ')' ∉ u) (cs : Chars) :
    ∃ w, w ≠ [] ∧ lineUrls ('[' :: (t ++ ']' :: '(' :: (u ++ ')' :: cs))) = w :: lineUrls cs := by
  obtain ⟨w, hw, hwne⟩ := sedPick_token_ex htm hum hu
  refine ⟨w, hwne, ?_⟩
  unfold lineUrls
  rw [grepScan_token ht htm hu hum cs, List.filterMap_cons_some hw]

/-- The grep grammar: the line contains, somewhere, a `[` followed by a
non-empty `]`-free text, `](`, a non-empty `)`-free url and `)`. -/
def HasToken (cs : Chars) : Prop :=
  ∃ a t u r, cs = a ++ '[' :: (t ++ ']' :: '(' :: (u ++ ')' :: r)) ∧
    t ≠ [] ∧ u ≠ [] ∧ ']' ∉ t ∧ ')' ∉ u

theorem grepScan_sound : ∀ (n : Nat) (cs : Chars), cs.length ≤ n → ∀ {t u : Chars},
    (t, u) ∈ grepScan cs →
    ∃ a r, cs = a ++ '[' :: (t ++ ']' :: '(' :: (u ++ ')' :: r)) ∧
      t ≠ [] ∧ u ≠ [] ∧ ']' ∉ t ∧ ')' ∉ u := by
  intro n
  induction n with
  | zero =>
    intro cs hlen t u hmem
    have : cs = [] := List.length_eq_zero.mp (Nat.le_zero.mp hlen)
    subst this
    simp [grepScan_nil] at hmem
  | succ n ih =>
    intro cs hlen t u hmem
    cases cs with
    | nil => simp [grepScan_nil] at hmem
    | cons c rest =>
      simp only [List.length_cons] at hlen
      by_cases hc : c = '['
      · subst hc
        cases htm : tryMatch rest with
        | none =>
          rw [grepScan_cons_fail htm] at hmem
          obtain ⟨a, r, hdec, h1, h2, h3, h4⟩ := ih rest (by omega) hmem
          exact ⟨'[' :: a, r, by rw [List.cons_append, hdec], h1, h2, h3, h4⟩
        | some tur =>
          obtain ⟨t0, u0, r0⟩ := tur
          rw [grepScan_cons_match htm] at hmem
          obtain ⟨hcs0, ht0, hu0, hm3, hm4⟩ := tryMatch_some htm
          rcases List.mem_cons.mp hmem with heq | hmem'
          · rw [Prod.mk.injEq] at heq
            obtain ⟨h1, h2⟩ := heq
            subst h1
            subst h2
            exact ⟨[], r0, by rw [List.nil_append, hcs0], ht0, hu0, hm3, hm4⟩
          · have hr0len : r0.length < rest.length := tryMatch_rest_length htm
            obtain ⟨a, r, hdec, h1, h2, h3, h4⟩ := ih r0 (by omega) hmem'
            refine ⟨'[' :: (t0 ++ ']' :: '(' :: (u0 ++ ')' :: a)), r, ?_, h1, h2, h3, h4⟩
            rw [hcs0, hdec]
            simp [List.append_assoc]
      · rw [grepScan_cons_ne hc] at hmem
        obtain ⟨a, r, hdec, h1, h2, h3, h4⟩ := ih rest (by omega) hmem
        exact ⟨c :: a, r, by rw [List.cons_append, hdec], h1, h2, h3, h4⟩

theorem lineUrls_empty_of_no_token {cs : Chars} (h : ¬ HasToken cs) : lineUrls cs = [] := by
  unfold lineUrls
  cases hg : grepScan cs with
  | nil => rfl
  | cons p ps =>
    exfalso
    obtain ⟨t, u⟩ := p
    have hmem : (t, u) ∈ grepScan cs := by rw [hg]; exact List.mem_cons_self _ _
    obtain ⟨a, r, hdec, h1, h2, h3, h4⟩ := grepScan_sound cs.length cs le_rfl hmem
    exact h ⟨a, t, u, r, hdec, h1, h2, h3, h4⟩

/-! ### Helper lemmas: document-level extraction -/

theorem extractFrom_mem : ∀ {doc : List Chars} {n : Nat} {e : Nat × Chars},
    e ∈ extractFrom n doc →
      n ≤ e.1 ∧ e.1 < n + doc.length ∧ e.2 ∈ lineUrls (doc.getD (e.1 - n) []) := by
  intro doc
  induction doc with
  | nil => intro n e hmem; simp [extractFrom] at hmem
  | cons line rest ih =>
    intro n e hmem
    simp only [extractFrom] at hmem
    rcases List.mem_append.mp hmem with h | h
    · obtain ⟨u, hu, hemem⟩ := List.mem_map.mp h
      subst hemem
      refine ⟨le_rfl, by simp only [List.length_cons]; omega, ?_⟩
      simp only [Nat.sub_self, List.getD]
      simpa using hu
    · obtain ⟨hge, hlt, hmem2⟩ := ih h
      refine ⟨by omega, by simp only [List.length_cons]; omega, ?_⟩
      have hk : e.1 - n = (e.1 - (n + 1)) + 1 := by omega
      rw [hk]
      simpa using hmem2

theorem pairwise_map_const {α : Type} (n : Nat) (l : List α) :
    List.Pairwise (fun a b : Nat × α => a.1 ≤ b.1) (l.map (fun u => (n, u))) := by
  induction l with
  | nil => exact List.Pairwise.nil
  | cons x xs ih =>
    rw [List.map_cons]
    refine List.Pairwise.cons ?_ ih
    intro b hb
    simp only [List.mem_map] at hb
    obtain ⟨y, -, hy⟩ := hb
    rw [← hy]

theorem extractFrom_pairwise : ∀ (doc : List Chars) (n : Nat),
    List.Pairwise (fun a b : Nat × Chars => a.1 ≤ b.1) (extractFrom n doc) := by
  intro doc
  induction doc with
  | nil => intro n; exact List.Pairwise.nil
  | cons line rest ih =>
    intro n
    simp only [extractFrom]
    rw [List.pairwise_append]
    refine ⟨pairwise_map_const n (lineUrls line), ih (n + 1), ?_⟩
    intro a ha b hb
    obtain ⟨u, -, hau⟩ := List.mem_map.mp ha
    have hb1 := (extractFrom_mem hb).1
    rw [← hau]
    simp only
    omega

/-! ### Helper lemmas: classification and per-url processing -/

theorem hasPrefix_head_eq {p q : Char} {ps qs url : Chars}
    (hp : hasPrefix (p :: ps) url = true) (hq : hasPrefix (q :: qs) url = true) : p = q := by
  obtain ⟨r1, h1⟩ := hasPrefix_head hp
  obtain ⟨r2, h2⟩ := hasPrefix_head hq
  rw [h1] at h2
  exact (List.cons.injEq p r1 q r2 ▸ h2).1

theorem not_hasPrefix_of_ne_head {p q : Char} {ps qs url : Chars} (hne : p ≠ q)
    (hp : hasPrefix (p :: ps) url = true) : hasPrefix (q :: qs) url = false := by
  by_contra h
  rw [Bool.not_eq_false] at h
  exact hne (hasPrefix_head_eq hp h)

theorem classify_external {url : Chars}
    (h : hasPrefix "http://".data url = true ∨ hasPrefix "https://".data url = true) :
    classify url = .external := by
  rcases h with h | h <;> simp [classify, h]

theorem classify_anchor {url : Chars} (h : hasPrefix "#".data url = true) :
    classify url = .anchor := by
  have h1 : hasPrefix "http://".data url = false := not_hasPrefix_of_ne_head (by decide) h
  have h2 : hasPrefix "https://".data url = false := not_hasPrefix_of_ne_head (by decide) h
  simp [classify, h, h1, h2]

theorem classify_contact {url : Chars}
    (h : hasPrefix "mailto:".data url = true ∨ hasPrefix "tel:".data url = true) :
    classify url = .contactScheme := by
  rcases h with h | h
  · have h1 : hasPrefix "http://".data url = false := not_hasPrefix_of_ne_head (by decide) h
    have h2 : hasPrefix "https://".data url = false := not_hasPrefix_of_ne_head (by decide) h
    have h3 : hasPrefix "#".data url = false := not_hasPrefix_of_ne_head (by decide) h
    simp [classify, h, h1, h2, h3]
  · have h1 : hasPrefix "http://".data url = false := not_hasPrefix_of_ne_head (by decide) h
    have h2 : hasPrefix "https://".data url = false := not_hasPrefix_of_ne_head (by decide) h
    have h3 : hasPrefix "#".data url = false := not_hasPrefix_of_ne_head (by decide) h
    simp [classify, h, h1, h2, h3]

theorem classify_internal {url : Chars} (h : hasPrefix "/".data url = true) :
    classify url = .internal := by
  have h1 : hasPrefix "http://".data url = false := not_hasPrefix_of_ne_head (by decide) h
  have h2 : hasPrefix "https://".data url = false := not_hasPrefix_of_ne_head (by decide) h
  have h3 : hasPrefix "#".data url = false := not_hasPrefix_of_ne_head (by decide) h
  have h4 : hasPrefix "mailto:".data url = false := not_hasPrefix_of_ne_head (by decide) h
  have h5 : hasPrefix "tel:".data url = false := not_hasPrefix_of_ne_head (by decide) h
  simp [classify, h, h1, h2, h3, h4, h5]

theorem classify_other {url : Chars}
    (h1 : hasPrefix "http://".data url = false) (h2 : hasPrefix "https://".data url = false)
    (h3 : hasPrefix "#".data url = false) (h4 : hasPrefix "mailto:".data url = false)
    (h5 : hasPrefix "tel:".data url = false) (h6 : hasPrefix "/".data url = false) :
    classify url = .other := by
  simp [classify, h1, h2, h3, h4, h5, h6]

theorem processUrl_anchor {url : Chars} (h : hasPrefix "#".data url = true)
    (cfg : Config) (net : Chars → Option Nat) (fs : List Chars) (p : Chars) (n : Nat) :
    processUrl cfg net fs p n url = none := by
  have h1 : hasPrefix "http://".data url = false := not_hasPrefix_of_ne_head (by decide) h
  have h2 : hasPrefix "https://".data url = false := not_hasPrefix_of_ne_head (by decide) h
  simp [processUrl, h, h1, h2]

theorem processUrl_contact {url : Chars}
    (h : hasPrefix "mailto:".data url = true ∨ hasPrefix "tel:".data url = true)
    (cfg : Config) (net : Chars → Option Nat) (fs : List Chars) (p : Chars) (n : Nat) :
    processUrl cfg net fs p n url = none := by
  rcases h with h | h
  · have h1 : hasPrefix "http://".data url = false := not_hasPrefix_of_ne_head (by decide) h
    have h2 : hasPrefix "https://".data url = false := not_hasPrefix_of_ne_head (by decide) h
    simp [processUrl, h, h1, h2]
  · have h1 : hasPrefix "http://".data url = false := not_hasPrefix_of_ne_head (by decide) h
    have h2 : hasPrefix "https://".data url = false := not_hasPrefix_of_ne_head (by decide) h
    simp [processUrl, h, h1, h2]

theorem processUrl_internal {url : Chars} (h : hasPrefix "/".data url = true)
    (cfg : Config) (net : Chars → Option Nat) (fs : List Chars) (p : Chars) (n : Nat) :
    processUrl cfg net fs p n url =
      if check_internal_path fs url then none
      else some ⟨p, n, url, "internal".data⟩ := by
  have h1 : hasPrefix "http://".data url = false := not_hasPrefix_of_ne_head (by decide) h
  have h2 : hasPrefix "https://".data url = false := not_hasPrefix_of_ne_head (by decide) h
  have h3 : hasPrefix "#".data url = false := not_hasPrefix_of_ne_head (by decide) h
  have h4 : hasPrefix "mailto:".data url = false := not_hasPrefix_of_ne_head (by decide) h
  have h5 : hasPrefix "tel:".data url = false := not_hasPrefix_of_ne_head (by decide) h
  simp [processUrl, h, h1, h2, h3, h4, h5]

theorem processUrl_external {url : Chars}
    (h : hasPrefix "http://".data url = true ∨ hasPrefix "https://".data url = true)
    (cfg : Config) (net : Chars → Option Nat) (fs : List Chars) (p : Chars) (n : Nat) :
    processUrl cfg net fs p n url =
      if cfg.skipExternal then none
      else if check_external_url net url then none
      else some ⟨p, n, url, "external".data⟩ := by
  rcases h with h | h <;> simp [processUrl, h]

theorem processUrl_other {url : Chars}
    (h1 : hasPrefix "http://".data url = false) (h2 : hasPrefix "https://".data url = false)
    (h3 : hasPrefix "#".data url = false) (h4 : hasPrefix "mailto:".data url = false)
    (h5 : hasPrefix "tel:".data url = false) (h6 : hasPrefix "/".data url = false)
    (cfg : Config) (net : Chars → Option Nat) (fs : List Chars) (p : Chars) (n : Nat) :
    processUrl cfg net fs p n url = none := by
  simp [processUrl, h1, h2, h3, h4, h5, h6]

theorem processUrl_some_fields {cfg : Config} {net : Chars → Option Nat} {fs : List Chars}
    {p : Chars} {n : Nat} {url : Chars} {r : BrokenLinkRecord}
    (h : processUrl cfg net fs p n url = some r) :
    r.sourcePath = p ∧ r.lineNumber = n ∧ r.rawUrl = url ∧
      (r.linkType = "external".data ∨ r.linkType = "internal".data) := by
  unfold processUrl at h
  split at h
  · split at h
    · exact absurd h (by simp)
    · split at h
      · exact absurd h (by simp)
      · rw [Option.some.injEq] at h
        subst h
        exact ⟨rfl, rfl, rfl, Or.inl rfl⟩
  · split at h
    · exact absurd h (by simp)
    · split at h
      · split at h
        · exact absurd h (by simp)
        · rw [Option.some.injEq] at h
          subst h
          exact ⟨rfl, rfl, rfl, Or.inr rfl⟩
      · exact absurd h (by simp)

/-- `FIX_MODE` is never consulted while scanning: per-url processing only
reads the `skipExternal` flag. -/
theorem processUrl_fix_indep (b1 b2 s : Bool) (net : Chars → Option Nat) (fs : List Chars)
    (p : Chars) (n : Nat) (url : Chars) :
    processUrl ⟨b1, s⟩ net fs p n url = processUrl ⟨b2, s⟩ net fs p n url := rfl

theorem processUrl_nonexternal_indep {url : Chars} (hne : classify url ≠ .external)
    (cfg1 cfg2 : Config) (net : Chars → Option Nat) (fs : List Chars) (p : Chars) (n : Nat) :
    processUrl cfg1 net fs p n url = processUrl cfg2 net fs p n url := by
  have hh : (hasPrefix "http://".data url || hasPrefix "https://".data url) = false := by
    by_contra hcon
    rw [Bool.not_eq_false, Bool.or_eq_true] at hcon
    exact hne (classify_external hcon)
  rw [Bool.or_eq_false_iff] at hh
  unfold processUrl
  rw [hh.1, hh.2]
  simp

/-! ### Helper lemmas: the scan driver -/

theorem foldl_scanStep (cfg : Config) (net : Chars → Option Nat) (fs : List Chars) :
    ∀ (docs : List FileDoc) (init : ScanReport),
      docs.foldl (scanStep cfg net fs) init =
        ⟨init.filesChecked + docs.length,
         init.filesWithErrors +
           (docs.filter (fun d => !(processFile cfg net fs d).isEmpty)).length,
         init.brokenLinks ++ docs.flatMap (processFile cfg net fs)⟩ := by
  intro docs
  induction docs with
  | nil =>
    intro init
    cases init
    simp
  | cons d ds ih =>
    intro init
    rw [List.foldl_cons, ih]
    simp only [scanStep]
    rw [ScanReport.mk.injEq]
    refine ⟨by simp only [List.length_cons]; omega, ?_,
      by simp [List.flatMap_cons, List.append_assoc]⟩
    rw [List.filter_cons]
    by_cases hemp : (processFile cfg net fs d).isEmpty = true
    · rw [if_pos hemp]
      rw [if_neg (by simp [hemp])]
      omega
    · have hf : (processFile cfg net fs d).isEmpty = false := Bool.eq_false_iff.mpr hemp
      rw [if_neg hemp]
      rw [if_pos (by rw [hf]; rfl)]
      simp only [List.length_cons]
      omega

theorem runScan_brokenLinks (cfg : Config) (net : Chars → Option Nat) (fs : List Chars)
    (docs : List FileDoc) :
    (runScan cfg net fs docs).brokenLinks = docs.flatMap (processFile cfg net fs) := by
  rw [runScan, foldl_scanStep]
  simp

theorem runScan_filesChecked (cfg : Config) (net : Chars → Option Nat) (fs : List Chars)
    (docs : List FileDoc) : (runScan cfg net fs docs).filesChecked = docs.length := by
  rw [runScan, foldl_scanStep]
  simp

theorem runScan_filesWithErrors (cfg : Config) (net : Chars → Option Nat) (fs : List Chars)
    (docs : List FileDoc) :
    (runScan cfg net fs docs).filesWithErrors =
      (docs.filter (fun d => !(processFile cfg net fs d).isEmpty)).length := by
  rw [runScan, foldl_scanStep]
  simp

theorem runScan_errors_zero_iff (cfg : Config) (net : Chars → Option Nat) (fs : List Chars)
    (docs : List FileDoc) :
    (runScan cfg net fs docs).filesWithErrors = 0 ↔
      (runScan cfg net fs docs).brokenLinks = [] := by
  rw [runScan_filesWithErrors, runScan_brokenLinks, List.length_eq_zero,
    List.filter_eq_nil_iff, List.flatMap_eq_nil_iff]
  constructor
  · intro h d hd
    have h2 := h d hd
    simp only [Bool.not_eq_true, Bool.not_eq_false', List.isEmpty_iff] at h2
    exact h2
  · intro h d hd
    simp only [Bool.not_eq_true, Bool.not_eq_false', List.isEmpty_iff]
    exact h d hd

theorem classify_ne_external {url : Chars}
    (hh : (hasPrefix "http://".data url || hasPrefix "https://".data url) = false) :
    classify url ≠ .external := by
  unfold classify
  rw [if_neg (by simp [hh])]
  split
  · decide
  · split
    · decide
    · split <;> decide

theorem processUrl_nonexternal_linkType {cfg : Config} {net : Chars → Option Nat}
    {fs : List Chars} {p : Chars} {n : Nat} {url : Chars} {r : BrokenLinkRecord}
    (hh : (hasPrefix "http://".data url || hasPrefix "https://".data url) = false)
    (h : processUrl cfg net fs p n url = some r) : r.linkType = "internal".data := by
  unfold processUrl at h
  rw [hh] at h
  rw [if_neg (by simp)] at h
  split at h
  · exact absurd h (by simp)
  · split at h
    · split at h
      · exact absurd h (by simp)
      · rw [Option.some.injEq] at h
        subst h
        rfl
    · exact absurd h (by simp)

theorem filterMap_filter_eq {α β : Type} (f g : α → Option β) (p : β → Bool)
    (h : ∀ a, f a = (g a).bind (fun b => if p b then some b else none)) :
    ∀ l : List α, l.filterMap f = (l.filterMap g).filter p := by
  intro l
  induction l with
  | nil => rfl
  | cons a l ih =>
    cases hg : g a with
    | none =>
      rw [List.filterMap_cons_none (by rw [h a, hg]; rfl), List.filterMap_cons_none hg, ih]
    | some b =>
      rw [List.filterMap_cons_some hg, List.filter_cons]
      by_cases hp : p b = true
      · have hfa : f a = some b := by rw [h a, hg]; simp [hp]
        rw [if_pos hp, List.filterMap_cons_some hfa, ih]
      · have hf : p b = false := Bool.eq_false_iff.mpr hp
        have hfa : f a = none := by rw [h a, hg]; simp [hf]
        rw [if_neg hp, List.filterMap_cons_none hfa, ih]

theorem processUrl_skip_elem (b1 b2 : Bool) (net : Chars → Option Nat) (fs : List Chars)
    (p : Chars) (n : Nat) (url : Chars) :
    processUrl ⟨b1, true⟩ net fs p n url =
      (processUrl ⟨b2, false⟩ net fs p n url).bind
        (fun r => if !(r.linkType == "external".data) then some r else none) := by
  by_cases hh : (hasPrefix "http://".data url || hasPrefix "https://".data url) = true
  · rw [Bool.or_eq_true] at hh
    rw [processUrl_external hh ⟨b1, true⟩, processUrl_external hh ⟨b2, false⟩]
    by_cases hc : check_external_url net url = true
    · simp [hc]
    · have hcf : check_external_url net url = false := Bool.eq_false_iff.mpr hc
      simp [hcf]
  · have hhf : (hasPrefix "http://".data url || hasPrefix "https://".data url) = false :=
      Bool.eq_false_iff.mpr hh
    have heq := processUrl_nonexternal_indep (classify_ne_external hhf)
      ⟨b1, true⟩ ⟨b2, false⟩ net fs p n
    rw [heq]
    cases hres : processUrl ⟨b2, false⟩ net fs p n url with
    | none => rfl
    | some r =>
      have hlt := processUrl_nonexternal_linkType hhf hres
      simp [hlt]

theorem processFile_skip (b1 b2 : Bool) (net : Chars → Option Nat) (fs : List Chars)
    (doc : FileDoc) :
    processFile ⟨b1, true⟩ net fs doc =
      (processFile ⟨b2, false⟩ net fs doc).filter
        (fun r => !(r.linkType == "external".data)) := by
  unfold processFile
  apply filterMap_filter_eq
  intro e
  exact processUrl_skip_elem b1 b2 net fs doc.path e.1 e.2

/-! ### Helper lemmas: the internal path resolver -/

/-- The shape recognized by `^/docs/guides/([^/]+)/([^/]+)$`. -/
def GuideShape (p : Chars) : Prop :=
  ∃ c s, p = "/docs/guides/".data ++ c ++ '/' :: s ∧ c ≠ [] ∧ s ≠ [] ∧ '/' ∉ c ∧ '/' ∉ s

/-- The shape recognized by `^/docs/tutorials/([^/]+)$`. -/
def TutorialShape (p : Chars) : Prop :=
  ∃ s, p = "/docs/tutorials/".data ++ s ∧ s ≠ [] ∧ '/' ∉ s

theorem check_internal_guides (fs : List Chars) {c s : Chars}
    (hc : c ≠ []) (hs : s ≠ []) (hcsl : '/' ∉ c) (hssl : '/' ∉ s)
    (hch : '#' ∉ c) (hsh : '#' ∉ s) :
    check_internal_path fs ("/docs/guides/".data ++ c ++ '/' :: s) =
      fileExists fs ("guides/".data ++ c ++ '/' :: (s ++ ".md".data)) := by
  have hshape : "/docs/guides/".data ++ c ++ '/' :: s =
      '/' :: ("docs".data ++ '/' :: ("guides".data ++ '/' :: (c ++ '/' :: s))) := by
    simp
  have hnh : '#' ∉ "/docs/guides/".data ++ c ++ '/' :: s := by
    intro hmem
    rcases List.mem_append.mp hmem with h | h
    · rcases List.mem_append.mp h with h | h
      · exact absurd h (by decide)
      · exact hch h
    · rcases List.mem_cons.mp h with h | h
      · exact absurd h (by decide)
      · exact hsh h
  have hsplit : splitOnChar '/' ("/docs/guides/".data ++ c ++ '/' :: s) =
      [[], "docs".data, "guides".data, c, s] := by
    rw [hshape, splitOnChar_sep_cons, splitOnChar_append_sep (by decide),
      splitOnChar_append_sep (by decide), splitOnChar_append_sep hcsl,
      splitOnChar_no_sep hssl]
  unfold check_internal_path
  rw [stripAnchor_no_hash hnh]
  dsimp only
  rw [hsplit]
  have hcf : (c == ([] : Chars)) = false := by
    rw [beq_eq_false_iff_ne]
    exact hc
  have hsf : (s == ([] : Chars)) = false := by
    rw [beq_eq_false_iff_ne]
    exact hs
  simp [hcf, hsf]

theorem check_internal_tutorials (fs : List Chars) {s : Chars}
    (hs : s ≠ []) (hssl : '/' ∉ s) (hsh : '#' ∉ s) :
    check_internal_path fs ("/docs/tutorials/".data ++ s) =
      fileExists fs ("tutorials/".data ++ (s ++ ".md".data)) := by
  have hshape : "/docs/tutorials/".data ++ s =
      '/' :: ("docs".data ++ '/' :: ("tutorials".data ++ '/' :: s)) := by
    simp
  have hnh : '#' ∉ "/docs/tutorials/".data ++ s := by
    intro hmem
    rcases List.mem_append.mp hmem with h | h
    · exact absurd h (by decide)
    · exact hsh h
  have hsplit : splitOnChar '/' ("/docs/tutorials/".data ++ s) =
      [[], "docs".data, "tutorials".data, s] := by
    rw [hshape, splitOnChar_sep_cons, splitOnChar_append_sep (by decide),
      splitOnChar_append_sep (by decide), splitOnChar_no_sep hssl]
  unfold check_internal_path
  rw [stripAnchor_no_hash hnh]
  dsimp only
  rw [hsplit]
  have hsf : (s == ([] : Chars)) = false := by
    rw [beq_eq_false_iff_ne]
    exact hs
  simp [hsf]

theorem check_internal_docs_index (fs : List Chars) :
    check_internal_path fs "/docs".data = true ∧
    check_internal_path fs "/docs/".data = true ∧
    check_internal_path fs "/".data = true :=
  ⟨rfl, rfl, rfl⟩

theorem check_internal_true_shapes {fs : List Chars} {p : Chars} (hph : '#' ∉ p)
    (h : check_internal_path fs p = true) :
    GuideShape p ∨ TutorialShape p ∨ p = "/docs".data ∨ p = "/docs/".data ∨ p = "/".data := by
  unfold check_internal_path at h
  rw [stripAnchor_no_hash hph] at h
  dsimp only at h
  have hj := joinWith_splitOnChar '/' p
  have hparts := fun {q} (hq : q ∈ splitOnChar '/' p) => splitOnChar_parts_no_sep '/' p hq
  split at h
  case h_1 a b c x y heq =>
    simp only [Bool.and_eq_true, beq_iff_eq, Bool.not_eq_true', beq_eq_false_iff_ne] at h
    obtain ⟨⟨⟨⟨⟨ha, hb⟩, hcg⟩, hx⟩, hy⟩, -⟩ := h
    subst ha
    subst hb
    subst hcg
    rw [heq] at hj
    simp only [joinWith, List.nil_append] at hj
    left
    refine ⟨x, y, ?_, hx, hy, ?_, ?_⟩
    · rw [← hj]
      simp
    · exact hparts (by rw [heq]; simp)
    · exact hparts (by rw [heq]; simp)
  case h_2 a b c x heq =>
    simp only [Bool.and_eq_true, beq_iff_eq, Bool.not_eq_true', beq_eq_false_iff_ne] at h
    obtain ⟨⟨⟨⟨ha, hb⟩, hct⟩, hx⟩, -⟩ := h
    subst ha
    subst hb
    subst hct
    rw [heq] at hj
    simp only [joinWith, List.nil_append] at hj
    right
    left
    refine ⟨x, ?_, hx, ?_⟩
    · rw [← hj]
      simp
    · exact hparts (by rw [heq]; simp)
  case h_3 a b c heq =>
    simp only [Bool.and_eq_true, beq_iff_eq] at h
    obtain ⟨⟨ha, hb⟩, hcg⟩ := h
    subst ha
    subst hb
    subst hcg
    rw [heq] at hj
    simp only [joinWith, List.nil_append] at hj
    right
    right
    right
    left
    rw [← hj]
    decide
  case h_4 a b heq =>
    simp only [Bool.and_eq_true, beq_iff_eq, Bool.or_eq_true] at h
    obtain ⟨ha, hb⟩ := h
    subst ha
    rw [heq] at hj
    simp only [joinWith, List.nil_append] at hj
    rcases hb with hb | hb
    · subst hb
      right
      right
      left
      rw [← hj]
    · subst hb
      right
      right
      right
      right
      rw [← hj]
  case h_5 =>
    exact absurd h (by simp)

theorem check_internal_other (fs : List Chars) {p : Chars} (hph : '#' ∉ p)
    (hg : ¬ GuideShape p) (ht : ¬ TutorialShape p)
    (h1 : p ≠ "/docs".data) (h2 : p ≠ "/docs/".data) (h3 : p ≠ "/".data) :
    check_internal_path fs p = false := by
  by_contra hb
  rw [Bool.not_eq_false] at hb
  rcases check_internal_true_shapes hph hb with h | h | h | h | h
  · exact hg h
  · exact ht h
  · exact h1 h
  · exact h2 h
  · exact h3 h

theorem check_internal_stripAnchor (fs : List Chars) (url : Chars) :
    check_internal_path fs url = check_internal_path fs (stripAnchor url) := by
  unfold check_internal_path
  rw [stripAnchor_idem]

theorem extractFrom_nil_of_lines : ∀ (n : Nat) (doc : List Chars),
    (∀ line ∈ doc, lineUrls line = []) → extractFrom n doc = [] := by
  intro n doc
  induction doc generalizing n with
  | nil => intro _; rfl
  | cons line rest ih =>
    intro h
    simp only [extractFrom]
    rw [h line (List.mem_cons_self line rest), ih (n + 1) (fun l hl => h l (List.mem_cons_of_mem line hl))]
    rfl

theorem pairwise_filterMap_of {α β : Type} {R : α → α → Prop} {S : β → β → Prop}
    (f : α → Option β)
    (hf : ∀ a a' b b', f a = some b → f a' = some b' → R a a' → S b b') :
    ∀ {l : List α}, List.Pairwise R l → List.Pairwise S (l.filterMap f) := by
  intro l hp
  induction hp with
  | nil => exact List.Pairwise.nil
  | @cons a l' hhead htail ih =>
    cases hfa : f a with
    | none =>
      rw [List.filterMap_cons_none hfa]
      exact ih
    | some b =>
      rw [List.filterMap_cons_some hfa]
      refine List.Pairwise.cons ?_ ih
      intro b' hb'
      obtain ⟨a', ha', hfa'⟩ := List.mem_filterMap.mp hb'
      exact hf a a' b b' hfa hfa' (hhead a' ha')

/-! ### The claims -/

/-- C1: the process exit code is 0 iff the aggregated report contains no
broken links (equivalently, iff `filesWithErrors = 0`), 1 iff at least one
file had a broken link, and it does not depend on whether fix mode was
requested. -/
theorem C1_exit_code (cfg : Config) (net : Chars → Option Nat) (fs : List Chars)
    (docs : List FileDoc) :
    (exitCode (runScan cfg net fs docs) = 0 ↔ (runScan cfg net fs docs).filesWithErrors = 0) ∧
    (exitCode (runScan cfg net fs docs) = 1 ↔ 1 ≤ (runScan cfg net fs docs).filesWithErrors) ∧
    (exitCode (runScan cfg net fs docs) = 0 ↔ (runScan cfg net fs docs).brokenLinks = []) ∧
    (∀ b1 b2 : Bool,
      exitCode (runScan ⟨b1, cfg.skipExternal⟩ net fs docs) =
        exitCode (runScan ⟨b2, cfg.skipExternal⟩ net fs docs)) := by
  have hbe : exitCode (runScan cfg net fs docs) = 0 ↔
      (runScan cfg net fs docs).brokenLinks = [] := by
    unfold exitCode
    by_cases hb : (runScan cfg net fs docs).brokenLinks.isEmpty = true
    · rw [if_pos hb]
      simp [List.isEmpty_iff.mp hb]
    · rw [if_neg hb]
      rw [← List.isEmpty_iff]
      simp only [hb]
      simp
  refine ⟨?_, ?_, hbe, ?_⟩
  · rw [hbe, runScan_errors_zero_iff]
  · unfold exitCode
    by_cases hb : (runScan cfg net fs docs).brokenLinks.isEmpty = true
    · rw [if_pos hb]
      have h0 := (runScan_errors_zero_iff cfg net fs docs).mpr (List.isEmpty_iff.mp hb)
      constructor
      · intro h01
        exact absurd h01 (by decide)
      · intro hge
        omega
    · rw [if_neg hb]
      have hne : (runScan cfg net fs docs).brokenLinks ≠ [] := by
        intro hnil
        exact hb (by rw [hnil]; rfl)
      have hne0 : ¬ (runScan cfg net fs docs).filesWithErrors = 0 := by
        intro h0
        exact hne ((runScan_errors_zero_iff cfg net fs docs).mp h0)
      constructor
      · intro _
        omega
      · intro _
        rfl
  · intro b1 b2
    rfl

theorem charDigit_digitChar {k : Nat} (h : k ≤ 9) : charDigit (digitChar k) = k := by
  interval_cases k <;> decide

theorem digitChar_ne_zero {k : Nat} (h1 : 1 ≤ k) (h9 : k ≤ 9) : digitChar k ≠ '0' := by
  interval_cases k <;> decide

theorem statusValue_statusDigits {c : Nat} (h : c ≤ 999) :
    statusValue (statusDigits c) = c := by
  unfold statusValue statusDigits
  simp only [List.foldl]
  rw [charDigit_digitChar (by omega), charDigit_digitChar (by omega),
    charDigit_digitChar (by omega)]
  omega

theorem statusDigits_ne_000 {c : Nat} (h1 : 100 ≤ c) (h9 : c ≤ 999) :
    (statusDigits c == "000".data) = false := by
  rw [beq_eq_false_iff_ne]
  intro heq
  unfold statusDigits at heq
  have h000 : "000".data = ['0', '0', '0'] := rfl
  rw [h000] at heq
  injection heq with hhead _
  exact digitChar_ne_zero (by omega) (by omega) hhead

/-- C4: the response-code half of the claim holds — a status in [100, 400)
is ok, a status of 400 or more is broken — but the no-response half does
not: with no response the captured status is `000000`, which passes both
`!= "000"` and `-lt 400` (its arithmetic value is 0), so the validator
reports an unreachable url as OK, the opposite of the Broken the claim
requires.  This evaluates the code at the failing input. -/
theorem C4_external_validator (net : Chars → Option Nat) (url : Chars) :
    (∀ c, net url = some c → 100 ≤ c → c < 400 → check_external_url net url = true) ∧
    (∀ c, net url = some c → 400 ≤ c → c ≤ 999 → check_external_url net url = false) ∧
    (net url = none → check_external_url net url = true) := by
  refine ⟨?_, ?_, ?_⟩
  · intro c hc h100 h400
    unfold check_external_url curlStatusString
    rw [hc]
    simp only
    rw [statusDigits_ne_000 h100 (by omega), statusValue_statusDigits (by omega)]
    simp [h400]
  · intro c hc h400 h999
    unfold check_external_url curlStatusString
    rw [hc]
    simp only
    rw [statusValue_statusDigits h999]
    have hn : ¬ c < 400 := by omega
    simp [hn]
  · intro hc
    unfold check_external_url curlStatusString
    rw [hc]
    decide

/-- C4 witness: a 200 response is ok, a 404 response is broken, and no
response at all is — because of the `000000` artifact — reported ok. -/
theorem C4_external_validator_witness :
    check_external_url (fun _ => some 200) "http://a".data = true ∧
    check_external_url (fun _ => some 404) "http://a".data = false ∧
    check_external_url (fun _ => none) "http://a".data = true := by
  have h1 := C4_external_validator (fun _ => some 200) "http://a".data
  have h2 := C4_external_validator (fun _ => some 404) "http://a".data
  have h3 := C4_external_validator (fun _ => none) "http://a".data
  exact ⟨h1.1 200 rfl (by decide) (by decide),
    h2.2.1 404 rfl (by decide) (by decide),
    h3.2.2 rfl⟩

/-- C9: evaluation of the code at the failing input.  When the content root
cannot be enumerated, `find` emits nothing and its failure status — hidden
behind `2>/dev/null` inside an unchecked process substitution — is
discarded: the run completes having checked zero files, reports success and
exits 0, instead of the reported failure and non-zero exit the claim
requires. -/
theorem C9_enumeration_failure (cfg : Config) (net : Chars → Option Nat) (fs : List Chars) :
    runMain cfg net fs .failed = (⟨0, 0, []⟩, 0) := rfl

/-- C8: internal resolution is computed on the prefix before the first `#`
(resolving a url equals resolving its anchor-stripped form, and appending a
fragment to a hash-free path never changes the resolution outcome), while
classification is computed on the original string (a url that starts with
`/` is classified internal even if it carries a fragment). -/
theorem C8_anchor_strip (fs : List Chars) (url : Chars) :
    (check_internal_path fs url = check_internal_path fs (stripAnchor url)) ∧
    (∀ p f : Chars, '#' ∉ p →
      check_internal_path fs (p ++ '#' :: f) = check_internal_path fs p) ∧
    (hasPrefix "/".data url = true → classify url = .internal) := by
  refine ⟨check_internal_stripAnchor fs url, ?_, classify_internal⟩
  intro p f hph
  calc check_internal_path fs (p ++ '#' :: f)
      = check_internal_path fs (stripAnchor (p ++ '#' :: f)) :=
        check_internal_stripAnchor fs _
    _ = check_internal_path fs p := by rw [stripAnchor_append hph]

/-- C2: classification is a pure function of the raw url string decided by
prefixes: `#` yields Anchor and the link is never validated (no record, no
filesystem or network access); `mailto:`/`tel:` yield ContactScheme and are
excluded; `http://`/`https://` yield External; `/` yields Internal; every
other url is excluded from checking and never produces a record. -/
theorem C2_classifier (url : Chars) :
    (hasPrefix "#".data url = true →
      classify url = .anchor ∧
      ∀ (cfg : Config) (net : Chars → Option Nat) (fs : List Chars) (p : Chars) (n : Nat),
        processUrl cfg net fs p n url = none) ∧
    ((hasPrefix "mailto:".data url = true ∨ hasPrefix "tel:".data url = true) →
      classify url = .contactScheme ∧
      ∀ (cfg : Config) (net : Chars → Option Nat) (fs : List Chars) (p : Chars) (n : Nat),
        processUrl cfg net fs p n url = none) ∧
    ((hasPrefix "http://".data url = true ∨ hasPrefix "https://".data url = true) →
      classify url = .external) ∧
    (hasPrefix "/".data url = true → classify url = .internal) ∧
    (hasPrefix "http://".data url = false → hasPrefix "https://".data url = false →
     hasPrefix "#".data url = false → hasPrefix "mailto:".data url = false →
     hasPrefix "tel:".data url = false → hasPrefix "/".data url = false →
      classify url = .other ∧
      ∀ (cfg : Config) (net : Chars → Option Nat) (fs : List Chars) (p : Chars) (n : Nat),
        processUrl cfg net fs p n url = none) := by
  refine ⟨?_, ?_, classify_external, classify_internal, ?_⟩
  · intro h
    exact ⟨classify_anchor h, fun cfg net fs p n => processUrl_anchor h cfg net fs p n⟩
  · intro h
    exact ⟨classify_contact h, fun cfg net fs p n => processUrl_contact h cfg net fs p n⟩
  · intro h1 h2 h3 h4 h5 h6
    exact ⟨classify_other h1 h2 h3 h4 h5 h6,
      fun cfg net fs p n => processUrl_other h1 h2 h3 h4 h5 h6 cfg net fs p n⟩

/-- C2 witness: the classifier and the processing dispatch evaluated at one
concrete url of each class (`#intro`, `mailto:x@y`, `tel:+1`, `http://a`,
`/docs`, a relative path and the empty string). -/
theorem C2_classifier_witness :
    (classify "#intro".data = .anchor ∧
      processUrl ⟨false, false⟩ (fun _ => none) [] "f".data 1 "#intro".data = none) ∧
    (classify "mailto:x@y".data = .contactScheme ∧
      processUrl ⟨false, false⟩ (fun _ => none) [] "f".data 1 "mailto:x@y".data = none) ∧
    (classify "tel:+1".data = .contactScheme) ∧
    (classify "http://a".data = .external) ∧
    (classify "/docs".data = .internal) ∧
    (classify "rel.md".data = .other ∧
      processUrl ⟨false, false⟩ (fun _ => none) [] "f".data 1 "rel.md".data = none) ∧
    (classify "".data = .other ∧
      processUrl ⟨false, false⟩ (fun _ => none) [] "f".data 1 "".data = none) := by
  have h1 := (C2_classifier "#intro".data).1 (by decide)
  have h2 := (C2_classifier "mailto:x@y".data).2.1 (Or.inl (by decide))
  have h3 := (C2_classifier "tel:+1".data).2.1 (Or.inr (by decide))
  have h4 := (C2_classifier "http://a".data).2.2.1 (Or.inl (by decide))
  have h5 := (C2_classifier "/docs".data).2.2.2.1 (by decide)
  have h6 := (C2_classifier "rel.md".data).2.2.2.2
    (by decide) (by decide) (by decide) (by decide) (by decide) (by decide)
  have h7 := (C2_classifier "".data).2.2.2.2
    (by decide) (by decide) (by decide) (by decide) (by decide) (by decide)
  exact ⟨⟨h1.1, h1.2 _ _ _ _ _⟩, ⟨h2.1, h2.2 _ _ _ _ _⟩, h3.1, h4, h5,
    ⟨h6.1, h6.2 _ _ _ _ _⟩, ⟨h7.1, h7.2 _ _ _ _ _⟩⟩

/-- C3: the internal resolver reports a guide path as existing iff
`guides/{category}/{slug}.md` is in the content tree, a tutorial path iff
`tutorials/{slug}.md` is, reports `/docs`, `/docs/` and `/` as always
existing regardless of the tree, and reports every other (hash-free) path
shape as broken — without any exception, being a total Boolean function. -/
theorem C3_internal_resolver (fs : List Chars) :
    (∀ c s : Chars, c ≠ [] → s ≠ [] → '/' ∉ c → '/' ∉ s → '#' ∉ c → '#' ∉ s →
      check_internal_path fs ("/docs/guides/".data ++ c ++ '/' :: s) =
        fileExists fs ("guides/".data ++ c ++ '/' :: (s ++ ".md".data))) ∧
    (∀ s : Chars, s ≠ [] → '/' ∉ s → '#' ∉ s →
      check_internal_path fs ("/docs/tutorials/".data ++ s) =
        fileExists fs ("tutorials/".data ++ (s ++ ".md".data))) ∧
    (check_internal_path fs "/docs".data = true ∧
      check_internal_path fs "/docs/".data = true ∧
      check_internal_path fs "/".data = true) ∧
    (∀ p : Chars, '#' ∉ p → ¬ GuideShape p → ¬ TutorialShape p →
      p ≠ "/docs".data → p ≠ "/docs/".data → p ≠ "/".data →
      check_internal_path fs p = false) :=
  ⟨fun c s hc hs hcsl hssl hch hsh => check_internal_guides fs hc hs hcsl hssl hch hsh,
   fun s hs hssl hsh => check_internal_tutorials fs hs hssl hsh,
   check_internal_docs_index fs,
   fun p hph hg ht h1 h2 h3 => check_internal_other fs hph hg ht h1 h2 h3⟩

/-- C3 witness: the resolver evaluated on a content tree holding exactly
`guides/bayes/basics.md` and `tutorials/getting-started.md`: the matching
guide and tutorial urls resolve, a missing guide does not, the synthetic
routes always resolve, and `/docs/api` (a shape no rule covers) is broken. -/
theorem C3_internal_resolver_witness :
    check_internal_path ["guides/bayes/basics.md".data, "tutorials/getting-started.md".data]
      "/docs/guides/bayes/basics".data = true ∧
    check_internal_path ["guides/bayes/basics.md".data, "tutorials/getting-started.md".data]
      "/docs/guides/bayes/nope".data = false ∧
    check_internal_path ["guides/bayes/basics.md".data, "tutorials/getting-started.md".data]
      "/docs/tutorials/getting-started".data = true ∧
    check_internal_path ["guides/bayes/basics.md".data, "tutorials/getting-started.md".data]
      "/docs".data = true ∧
    check_internal_path ["guides/bayes/basics.md".data, "tutorials/getting-started.md".data]
      "/docs/api".data = false := by
  have hres := C3_internal_resolver
    ["guides/bayes/basics.md".data, "tutorials/getting-started.md".data]
  have hg1 := hres.1 "bayes".data "basics".data
    (by decide) (by decide) (by decide) (by decide) (by decide) (by decide)
  have hg2 := hres.1 "bayes".data "nope".data
    (by decide) (by decide) (by decide) (by decide) (by decide) (by decide)
  have ht1 := hres.2.1 "getting-started".data (by decide) (by decide) (by decide)
  have hd := hres.2.2.1
  have hother := hres.2.2.2 "/docs/api".data (by decide)
    (by
      rintro ⟨c, s, heq, hc, hs, -, -⟩
      have hlen := congrArg List.length heq
      simp [List.length_append] at hlen)
    (by
      rintro ⟨s, heq, hs, -⟩
      have hlen := congrArg List.length heq
      simp [List.length_append] at hlen)
    (by decide) (by decide) (by decide)
  refine ⟨?_, ?_, ?_, hd.1, hother⟩
  · rw [show "/docs/guides/bayes/basics".data =
        "/docs/guides/".data ++ "bayes".data ++ '/' :: "basics".data from by decide]
    rw [hg1]
    decide
  · rw [show "/docs/guides/bayes/nope".data =
        "/docs/guides/".data ++ "bayes".data ++ '/' :: "nope".data from by decide]
    rw [hg2]
    decide
  · rw [show "/docs/tutorials/getting-started".data =
        "/docs/tutorials/".data ++ "getting-started".data from by decide]
    rw [ht1]
    decide

/-- C5 counterexample: the grep pattern `\[[^]]+\]\([^)]+\)` requires a
non-empty display text, but the claim's grammar (display text merely free of
`]`) admits the empty one: the line `[](/x)` is a token under the claim's
grammar, yet the extractor yields nothing for it. -/
theorem C5_counterexample :
    (∃ t u : Chars, "[](/x)".data = '[' :: (t ++ ']' :: '(' :: (u ++ ')' :: [])) ∧
      ']' ∉ t ∧ ')' ∉ u) ∧
    extractLinks ["[](/x)".data] = [] :=
  ⟨⟨[], "/x".data, by decide, by decide, by decide⟩, by decide⟩

/-- C5 amended: for tokens with non-empty display text and non-empty url,
the extractor yields one occurrence per token — text without `[` contributes
nothing, each token prepends exactly one url (the token's own url when the
url contains no `[`), a document whose lines contain no token yields the
empty sequence, and every occurrence carries a 1-based line number pointing
at the line it came from, so tokens are reported in line order and
left-to-right within a line. -/
theorem C5_extractor (doc : List Chars) :
    (∀ s cs : Chars, '[' ∉ s → lineUrls (s ++ cs) = lineUrls cs) ∧
    (∀ t u cs : Chars, t ≠ [] → ']' ∉ t → u ≠ [] → ')' ∉ u → '[' ∉ u →
      lineUrls ('[' :: (t ++ ']' :: '(' :: (u ++ ')' :: cs))) = u :: lineUrls cs) ∧
    (∀ t u cs : Chars, t ≠ [] → ']' ∉ t → u ≠ [] → ')' ∉ u →
      ∃ w, w ≠ [] ∧
        lineUrls ('[' :: (t ++ ']' :: '(' :: (u ++ ')' :: cs))) = w :: lineUrls cs) ∧
    ((∀ line ∈ doc, ¬ HasToken line) → extractLinks doc = []) ∧
    (∀ e : Nat × Chars, e ∈ extractLinks doc →
      1 ≤ e.1 ∧ e.1 ≤ doc.length ∧ e.2 ∈ lineUrls (doc.getD (e.1 - 1) [])) := by
  refine ⟨?_, ?_, ?_, ?_, ?_⟩
  · intro s cs hs
    exact lineUrls_append_plain hs cs
  · intro t u cs ht htm hu hum hbu
    exact lineUrls_token ht htm hu hum hbu cs
  · intro t u cs ht htm hu hum
    exact lineUrls_token_ex ht htm hu hum cs
  · intro h
    exact extractFrom_nil_of_lines 1 doc
      (fun l hl => lineUrls_empty_of_no_token (h l hl))
  · intro e he
    obtain ⟨h1, h2, h3⟩ := extractFrom_mem he
    exact ⟨h1, by omega, h3⟩

/-- C5 witness: the amended extractor contract evaluated at concrete lines
(a skipped plain prefix, a token followed by a second token, a token whose
url contains an inner bracket pair, a token-free document, and a concrete
occurrence with its line number). -/
theorem C5_extractor_witness :
    (lineUrls ("see ".data ++ "[a](/x)".data) = lineUrls "[a](/x)".data) ∧
    (lineUrls ('[' :: ("a".data ++ ']' :: '(' :: ("/x".data ++ ')' :: "[b](/y)".data))) =
      "/x".data :: lineUrls "[b](/y)".data) ∧
    (∃ w, w ≠ [] ∧
      lineUrls ('[' :: ("a".data ++ ']' :: '(' :: ("x[y](z".data ++ ')' :: []))) =
        w :: lineUrls []) ∧
    (extractLinks ["plain text".data] = []) ∧
    (1 ≤ (1 : Nat) ∧ 1 ≤ (["x [a](/b)".data] : List Chars).length ∧
      "/b".data ∈ lineUrls ((["x [a](/b)".data] : List Chars).getD (1 - 1) [])) := by
  refine ⟨(C5_extractor []).1 "see ".data "[a](/x)".data (by decide),
    (C5_extractor []).2.1 "a".data "/x".data "[b](/y)".data
      (by decide) (by decide) (by decide) (by decide) (by decide),
    (C5_extractor []).2.2.1 "a".data "x[y](z".data []
      (by decide) (by decide) (by decide) (by decide),
    (C5_extractor ["plain text".data]).2.2.2.1 ?_,
    (C5_extractor ["x [a](/b)".data]).2.2.2.2 (1, "/b".data) (by decide)⟩
  intro line hline
  rw [List.mem_singleton.mp hline]
  rintro ⟨a, t, u, r, heq, -, -, -, -⟩
  have hmem : ('[' : Char) ∈ a ++ '[' :: (t ++ ']' :: '(' :: (u ++ ')' :: r)) :=
    List.mem_append_right _ (List.mem_cons_self _ _)
  rw [← heq] at hmem
  exact absurd hmem (by decide)

/-- C10 counterexample: the claim admits any image url without `)`, but for
`![a](/x[y](z)` the token url is `/x[y](z` — internal (it starts with `/`)
and matching no route — yet the greedy sed re-extraction picks the inner
bracket pair and yields `z`, which is unclassifiable, so the file produces
NO BrokenLinkRecord. -/
theorem C10_counterexample :
    ("![a](/x[y](z)".data =
      '!' :: '[' :: ("a".data ++ ']' :: '(' :: ("/x[y](z".data ++ ')' :: []))) ∧
    hasPrefix "/".data "/x[y](z".data = true ∧
    check_internal_path [] "/x[y](z".data = false ∧
    processFile ⟨false, false⟩ (fun _ => none) []
      ⟨"f.md".data, ["![a](/x[y](z)".data]⟩ = [] :=
  ⟨by decide, by decide, by decide, by decide⟩

/-- C10 amended: for image tokens whose url also contains no `[`, the `!`
is ordinary non-`[` text to the grep pattern, so the `[displayText](url)`
part of an image is extracted like any link and its url is then classified
and validated identically: an image whose url is an internal path matching
no route produces a BrokenLinkRecord.  (A `[` inside the url can make the
greedy sed re-extraction return an inner url instead — see the
counterexample — exactly as for an ordinary link.) -/
theorem C10_images (cfg : Config) (net : Chars → Option Nat) (fs : List Chars) :
    (∀ cs : Chars, lineUrls ('!' :: cs) = lineUrls cs) ∧
    (∀ t u cs : Chars, t ≠ [] → ']' ∉ t → u ≠ [] → ')' ∉ u → '[' ∉ u →
      lineUrls ('!' :: '[' :: (t ++ ']' :: '(' :: (u ++ ')' :: cs))) = u :: lineUrls cs) ∧
    (∀ p t u : Chars, t ≠ [] → ']' ∉ t → u ≠ [] → ')' ∉ u → '[' ∉ u →
      hasPrefix "/".data u = true → check_internal_path fs u = false →
      processFile cfg net fs ⟨p, ['!' :: '[' :: (t ++ ']' :: '(' :: (u ++ ')' :: []))]⟩ =
        [⟨p, 1, u, "internal".data⟩]) := by
  refine ⟨?_, ?_, ?_⟩
  · intro cs
    exact lineUrls_cons_ne (by decide) cs
  · intro t u cs ht htm hu hum hbu
    rw [lineUrls_cons_ne (by decide), lineUrls_token ht htm hu hum hbu]
  · intro p t u ht htm hu hum hbu hslash hbroken
    have hline : lineUrls ('!' :: '[' :: (t ++ ']' :: '(' :: (u ++ ')' :: []))) = [u] := by
      rw [lineUrls_cons_ne (by decide), lineUrls_token ht htm hu hum hbu, lineUrls_nil]
    have hext : extractLinks ['!' :: '[' :: (t ++ ']' :: '(' :: (u ++ ')' :: []))] =
        [(1, u)] := by
      unfold extractLinks
      simp only [extractFrom]
      rw [hline]
      rfl
    have hpu : processUrl cfg net fs p 1 u = some ⟨p, 1, u, "internal".data⟩ := by
      rw [processUrl_internal hslash]
      rw [if_neg (by simp [hbroken])]
    unfold processFile
    simp only
    rw [hext]
    simp only [List.filterMap_cons, List.filterMap_nil]
    rw [hpu]

/-- C10 witness: the image line `![alt](/missing)` over an empty content
tree: its bracketed part is extracted, and the file report contains exactly
the broken internal record for `/missing`. -/
theorem C10_images_witness :
    (lineUrls ('!' :: "[a](/x)".data) = lineUrls "[a](/x)".data) ∧
    (lineUrls "![alt](/missing)".data = ["/missing".data]) ∧
    (processFile ⟨false, false⟩ (fun _ => none) []
      ⟨"f.md".data, ["![alt](/missing)".data]⟩ =
      [⟨"f.md".data, 1, "/missing".data, "internal".data⟩]) := by
  have hC := C10_images ⟨false, false⟩ (fun _ => none) []
  refine ⟨hC.1 "[a](/x)".data, ?_, ?_⟩
  · rw [show "![alt](/missing)".data =
        '!' :: '[' :: ("alt".data ++ ']' :: '(' :: ("/missing".data ++ ')' :: []))
      from by decide]
    rw [hC.2.1 "alt".data "/missing".data []
      (by decide) (by decide) (by decide) (by decide) (by decide)]
    rfl
  · rw [show ("![alt](/missing)".data : Chars) =
        '!' :: '[' :: ("alt".data ++ ']' :: '(' :: ("/missing".data ++ ')' :: []))
      from by decide]
    exact hC.2.2 "f.md".data "alt".data "/missing".data
      (by decide) (by decide) (by decide) (by decide) (by decide) (by decide) (by decide)

/-- C6: the aggregated broken-link list is exactly the concatenation, in
file enumeration order, of each file's records (so the listing is grouped by
source path and never reordered relative to the sequential fold that
produced it), every record of a file carries that file's path, and within a
file records appear in non-decreasing line order. -/
theorem C6_report_order (cfg : Config) (net : Chars → Option Nat) (fs : List Chars)
    (docs : List FileDoc) :
    ((runScan cfg net fs docs).brokenLinks = docs.flatMap (processFile cfg net fs)) ∧
    (∀ d : FileDoc, ∀ r ∈ processFile cfg net fs d, r.sourcePath = d.path) ∧
    (∀ d : FileDoc, List.Pairwise (fun a b => a.lineNumber ≤ b.lineNumber)
      (processFile cfg net fs d)) := by
  refine ⟨runScan_brokenLinks cfg net fs docs, ?_, ?_⟩
  · intro d r hr
    unfold processFile at hr
    obtain ⟨e, he, hpe⟩ := List.mem_filterMap.mp hr
    exact (processUrl_some_fields hpe).1
  · intro d
    unfold processFile
    apply pairwise_filterMap_of (R := fun a b : Nat × Chars => a.1 ≤ b.1)
    · intro a a' b b' hab hab' hr
      have h1 := (processUrl_some_fields hab).2.1
      have h2 := (processUrl_some_fields hab').2.1
      rw [h1, h2]
      exact hr
    · exact extractFrom_pairwise d.lines 1

/-- C6 witness: a one-file scan whose file holds broken links on lines 1 and
2: the report equals the per-file concatenation, the records carry the
file's path, and their line numbers are in order. -/
theorem C6_report_order_witness :
    ((runScan ⟨false, false⟩ (fun _ => none) []
        [⟨"f.md".data, ["[a](/bad)".data, "[b](/worse)".data]⟩]).brokenLinks =
      [⟨"f.md".data, ["[a](/bad)".data, "[b](/worse)".data]⟩].flatMap
        (processFile ⟨false, false⟩ (fun _ => none) [])) ∧
    ((⟨"f.md".data, 1, "/bad".data, "internal".data⟩ : BrokenLinkRecord).sourcePath =
      (⟨"f.md".data, ["[a](/bad)".data, "[b](/worse)".data]⟩ : FileDoc).path) ∧
    (List.Pairwise (fun a b : BrokenLinkRecord => a.lineNumber ≤ b.lineNumber)
      (processFile ⟨false, false⟩ (fun _ => none) []
        ⟨"f.md".data, ["[a](/bad)".data, "[b](/worse)".data]⟩)) := by
  have hC := C6_report_order ⟨false, false⟩ (fun _ => none) []
    [⟨"f.md".data, ["[a](/bad)".data, "[b](/worse)".data]⟩]
  exact ⟨hC.1,
    hC.2.1 ⟨"f.md".data, ["[a](/bad)".data, "[b](/worse)".data]⟩
      ⟨"f.md".data, 1, "/bad".data, "internal".data⟩ (by decide),
    hC.2.2 ⟨"f.md".data, ["[a](/bad)".data, "[b](/worse)".data]⟩⟩

/-- C7: with the skip-external flag set, the report equals the no-flag
report with every external record removed — no external link appears in it,
as broken or otherwise — while per-url processing of any non-external link
is identical under any two configurations, and the same files are counted. -/
theorem C7_skip_external (b1 b2 : Bool) (net : Chars → Option Nat) (fs : List Chars)
    (docs : List FileDoc) :
    ((runScan ⟨b1, true⟩ net fs docs).brokenLinks =
      (runScan ⟨b2, false⟩ net fs docs).brokenLinks.filter
        (fun r => !(r.linkType == "external".data))) ∧
    (∀ r ∈ (runScan ⟨b1, true⟩ net fs docs).brokenLinks,
      r.linkType ≠ "external".data) ∧
    (∀ (cfg1 cfg2 : Config) (p : Chars) (n : Nat) (url : Chars), classify url ≠ .external →
      processUrl cfg1 net fs p n url = processUrl cfg2 net fs p n url) ∧
    ((runScan ⟨b1, true⟩ net fs docs).filesChecked =
      (runScan ⟨b2, false⟩ net fs docs).filesChecked) := by
  have hmain : (runScan ⟨b1, true⟩ net fs docs).brokenLinks =
      (runScan ⟨b2, false⟩ net fs docs).brokenLinks.filter
        (fun r => !(r.linkType == "external".data)) := by
    rw [runScan_brokenLinks, runScan_brokenLinks]
    induction docs with
    | nil => rfl
    | cons d ds ih =>
      rw [List.flatMap_cons, List.flatMap_cons, List.filter_append, ih,
        processFile_skip b1 b2]
  refine ⟨hmain, ?_, ?_, ?_⟩
  · intro r hr
    rw [hmain] at hr
    have h2 := (List.mem_filter.mp hr).2
    simp only [Bool.not_eq_true', beq_eq_false_iff_ne] at h2
    exact h2
  · intro cfg1 cfg2 p n url hne
    exact processUrl_nonexternal_indep hne cfg1 cfg2 net fs p n
  · rw [runScan_filesChecked, runScan_filesChecked]

/-- C7 witness: a file holding one external link (answering 500, hence
broken when checked) and one broken internal link: the skip run's report is
the full run's report with the external record filtered out, the surviving
record is not external, and processing of the internal url is
flag-independent. -/
theorem C7_skip_external_witness :
    ((runScan ⟨false, true⟩ (fun _ => some 500) []
        [⟨"f.md".data, ["[a](http://x) [b](/bad)".data]⟩]).brokenLinks =
      (runScan ⟨false, false⟩ (fun _ => some 500) []
        [⟨"f.md".data, ["[a](http://x) [b](/bad)".data]⟩]).brokenLinks.filter
        (fun r => !(r.linkType == "external".data))) ∧
    ((runScan ⟨false, false⟩ (fun _ => some 500) []
        [⟨"f.md".data, ["[a](http://x) [b](/bad)".data]⟩]).brokenLinks =
      [⟨"f.md".data, 1, "http://x".data, "external".data⟩,
       ⟨"f.md".data, 1, "/bad".data, "internal".data⟩]) ∧
    ((⟨"f.md".data, 1, "/bad".data, "internal".data⟩ : BrokenLinkRecord).linkType ≠
      "external".data) ∧
    (processUrl ⟨false, true⟩ (fun _ => some 500) [] "f.md".data 1 "/bad".data =
      processUrl ⟨false, false⟩ (fun _ => some 500) [] "f.md".data 1 "/bad".data) := by
  have hC := C7_skip_external false false (fun _ => some 500) []
    [⟨"f.md".data, ["[a](http://x) [b](/bad)".data]⟩]
  exact ⟨hC.1, by decide,
    hC.2.1 ⟨"f.md".data, 1, "/bad".data, "internal".data⟩ (by decide),
    hC.2.2.1 ⟨false, true⟩ ⟨false, false⟩ "f.md".data 1 "/bad".data (by decide)⟩

/-- C8 witness: the example url `/docs/guides/bayes/basics#training` over a
tree holding `guides/bayes/basics.md`: resolving it equals resolving its
stripped form, appending the fragment changes nothing, it is classified
internal on the original string, and it resolves successfully. -/
theorem C8_anchor_strip_witness :
    (check_internal_path ["guides/bayes/basics.md".data]
        "/docs/guides/bayes/basics#training".data =
      check_internal_path ["guides/bayes/basics.md".data]
        (stripAnchor "/docs/guides/bayes/basics#training".data)) ∧
    (check_internal_path ["guides/bayes/basics.md".data]
        ("/docs/guides/bayes/basics".data ++ '#' :: "training".data) =
      check_internal_path ["guides/bayes/basics.md".data]
        "/docs/guides/bayes/basics".data) ∧
    (classify "/docs/guides/bayes/basics#training".data = .internal) ∧
    (check_internal_path ["guides/bayes/basics.md".data]
        "/docs/guides/bayes/basics#training".data = true) := by
  have hC := C8_anchor_strip ["guides/bayes/basics.md".data]
    "/docs/guides/bayes/basics#training".data
  exact ⟨hC.1,
    hC.2.1 "/docs/guides/bayes/basics".data "training".data (by decide),
    hC.2.2 (by decide),
    by decide⟩

end LinkCheck

